import Mathlib

/-!
# Verification of the libmav protocol-runtime specification

The repository's visible source (`src/main.cpp`) is an example program
exercising the libmav runtime: schema-driven message codec, typed field
access, connection/expectation engine and network runtime.  The runtime
itself is not part of the visible sources, so the definitions below are a
shallow embedding modelled from the specification: bytes are `Nat < 256`,
machine integers are `Nat`/`Int` with explicit `% 2^w`, fallible
operations return `Option`, and the concurrent dispatch path is modelled
as a step function over explicit event interleavings.
-/

namespace LibmavModel

/-! ## Bytes and little-endian integer serialization -/

/-- Modelled from the spec: wire buffers are byte sequences; a byte is a
natural number below 256.  `toLE w n` serializes `n` into `w`
little-endian bytes (the MAVLink wire order). -/
def toLE : Nat → Nat → List Nat
  | 0, _ => []
  | w + 1, n => n % 256 :: toLE w (n / 256)

/-- Modelled from the spec: reads a little-endian byte sequence back into
the natural number it encodes. -/
def fromLE : List Nat → Nat
  | [] => 0
  | b :: bs => b + 256 * fromLE bs

/-! ## Scalars: the supported numeric kinds -/

/-- Modelled from the spec: a field's numeric kind is unsigned, signed or
float (of some byte width). -/
inductive NumKind
  | unsigned
  | signed
  | float
deriving DecidableEq, Repr

/-- Modelled from the spec: a scalar field value.  Unsigned values are
naturals, signed values are integers, float values are carried by their
bit pattern (value equality of floats on the wire is bit equality). -/
inductive Scalar
  | u (n : Nat)
  | i (v : Int)
  | f (bits : Nat)
deriving DecidableEq, Repr

/-- Modelled from the spec: two's-complement interpretation of a `w`-byte
little-endian unsigned value as a signed integer. -/
def signedOfNat (w : Nat) (n : Nat) : Int :=
  if n < 256 ^ w / 2 then (n : Int) else (n : Int) - (256 ^ w : Nat)

/-- Modelled from the spec: a scalar is valid for a kind and byte width
when it is of the matching kind and within the width's range. -/
def scalarValidB (k : NumKind) (w : Nat) : Scalar → Bool
  | .u n => decide (k = .unsigned) && decide (n < 256 ^ w)
  | .i v => decide (k = .signed) &&
      decide (-((256 ^ w / 2 : Nat) : Int) ≤ v) && decide (v < ((256 ^ w / 2 : Nat) : Int))
  | .f bits => decide (k = .float) && decide (bits < 256 ^ w)

/-- Modelled from the spec: serializes one scalar into `w` little-endian
bytes; signed values are written in two's complement. -/
def encodeScalar (w : Nat) : Scalar → List Nat
  | .u n => toLE w n
  | .i v => toLE w ((v % ((256 ^ w : Nat) : Int)).toNat)
  | .f bits => toLE w bits

/-- Modelled from the spec: reads one scalar of the given kind from `w`
little-endian bytes. -/
def decodeScalar (k : NumKind) (w : Nat) (bs : List Nat) : Scalar :=
  match k with
  | .unsigned => .u (fromLE bs)
  | .signed => .i (signedOfNat w (fromLE bs))
  | .float => .f (fromLE bs)

/-! ## Schema dictionary: field and message definitions -/

/-- Modelled from the spec: a field definition has a name, a numeric kind,
a byte width, and an array length (`0` means scalar). -/
structure FieldDef where
  fname : String
  kind : NumKind
  width : Nat
  alen : Nat
deriving DecidableEq, Repr

/-- Modelled from the spec: number of stored elements of a field; an array
length of `0` denotes a scalar, hence one element. -/
def elemCount (f : FieldDef) : Nat :=
  if f.alen = 0 then 1 else f.alen

/-- Modelled from the spec: a message definition has a numeric id, a name,
and an ordered sequence of field definitions. -/
structure MessageDef where
  mid : Nat
  mname : String
  fields : List FieldDef
deriving DecidableEq, Repr

/-- Modelled from the spec: a message instance references its definition
and holds one list of scalar values per field, in definition order. -/
structure Message where
  mdef : MessageDef
  vals : List (List Scalar)
deriving DecidableEq, Repr

/-- Modelled from the spec: dictionary lookup of a message definition by
numeric id (`lookupById`). -/
def lookupById (dict : List MessageDef) (i : Nat) : Option MessageDef :=
  dict.find? (fun md => md.mid == i)

/-- Modelled from the spec: a field's stored values are valid when the
element count matches the declaration and every element is a valid scalar
of the declared kind and width. -/
def validField (f : FieldDef) (vs : List Scalar) : Bool :=
  decide (vs.length = elemCount f) && vs.all (scalarValidB f.kind f.width)

/-- Modelled from the spec: a payload valuation is valid when it has one
valid value list per field. -/
def validPayload : List FieldDef → List (List Scalar) → Bool
  | [], [] => true
  | fdef :: fs, vs :: rest => validField fdef vs && validPayload fs rest
  | _, _ => false

/-! ## Message codec: payload serialization -/

/-- Modelled from the spec: serializes the elements of one field in order. -/
def encodeElems (w : Nat) : List Scalar → List Nat
  | [] => []
  | v :: vs => encodeScalar w v ++ encodeElems w vs

/-- Modelled from the spec: serializes all fields in definition order into
the wire payload. -/
def encodePayload : List FieldDef → List (List Scalar) → List Nat
  | _, [] => []
  | [], _ => []
  | fdef :: fs, vs :: rest => encodeElems fdef.width vs ++ encodePayload fs rest

/-- Splits a byte sequence after exactly `n` bytes, failing on truncation. -/
def splitAtExact (n : Nat) (bs : List Nat) : Option (List Nat × List Nat) :=
  if n ≤ bs.length then some (bs.take n, bs.drop n) else none

/-- Modelled from the spec: reads `count` elements of width `w` and kind
`k`, returning the elements and the remaining bytes; fails on truncation. -/
def decodeElems (k : NumKind) (w : Nat) : Nat → List Nat → Option (List Scalar × List Nat)
  | 0, bs => some ([], bs)
  | c + 1, bs => do
    let (eb, rest) ← splitAtExact w bs
    let (vs, rest2) ← decodeElems k w c rest
    pure (decodeScalar k w eb :: vs, rest2)

/-- Modelled from the spec: decodes a payload against an ordered field
list, requiring the buffer to be consumed exactly. -/
def decodePayload : List FieldDef → List Nat → Option (List (List Scalar))
  | [], bs => if bs.isEmpty then some [] else none
  | fdef :: fs, bs => do
    let (vs, rest) ← decodeElems fdef.kind fdef.width (elemCount fdef) bs
    let tail ← decodePayload fs rest
    pure (vs :: tail)

/-! ## Message codec: framing and checksum -/

/-- Modelled from the spec: the frame checksum, computed over the frame
body (everything between the start marker and the checksum trailer) so
corruption is detectable; a concrete 16-bit sum is used as the
protocol-specific algorithm. -/
def checksum (bs : List Nat) : Nat :=
  bs.sum % 65536

/-- Modelled from the spec: the wire frame layout - start-of-frame marker,
payload length, sequence number, sender system/component identity, message
id, payload bytes in field order, checksum trailer. -/
def encodeFrame (seq sys comp : Nat) (m : Message) : List Nat :=
  let payload := encodePayload m.mdef.fields m.vals
  let core := toLE 2 payload.length ++ [seq % 256, sys % 256, comp % 256] ++
    toLE 3 m.mdef.mid ++ payload
  253 :: (core ++ toLE 2 (checksum core))

/-- Modelled from the spec: frame decoding - parses the layout, verifies
the checksum, looks the message id up in the dictionary and decodes the
payload; fails (`none`) on a bad marker, truncation, checksum mismatch or
unknown id. -/
def decodeFrame (dict : List MessageDef) : List Nat → Option Message
  | [] => none
  | b :: rest =>
    if b = 253 then
      (do
        let (lenB, r1) ← splitAtExact 2 rest
        let (hdrB, r2) ← splitAtExact 3 r1
        let (idB, r3) ← splitAtExact 3 r2
        let (payload, r4) ← splitAtExact (fromLE lenB) r3
        let (crcB, r5) ← splitAtExact 2 r4
        if r5.isEmpty && (fromLE crcB == checksum (lenB ++ hdrB ++ idB ++ payload)) then
          match lookupById dict (fromLE idB) with
          | some md => (decodePayload md.fields payload).map (fun vs => ⟨md, vs⟩)
          | none => none
        else none)
    else none

/-! ## Decode layer fault handling (corrupted frames) -/

/-- Replaces the last byte of a frame by a different byte, modelling
single-byte corruption of the checksum trailer. -/
def corruptLast : List Nat → List Nat
  | [] => []
  | [b] => [(b + 1) % 256]
  | b :: c :: bs => b :: corruptLast (c :: bs)

/-- Modelled from the spec: the per-connection receive state observable by
the application - open flag, delivered messages, surfaced errors. -/
structure RxConn where
  isOpen : Bool
  delivered : List Message
  appErrors : Nat
deriving DecidableEq, Repr

/-- Modelled from the spec: the decode layer feeds one frame to a
connection - a decodable frame is delivered, a corrupted or unrecognized
frame is dropped silently (no error surfaces, the connection state is
untouched, never fatal). -/
def feedFrame (dict : List MessageDef) (st : RxConn) (frame : List Nat) : RxConn :=
  match decodeFrame dict frame with
  | some m => { st with delivered := st.delivered ++ [m] }
  | none => st

/-- Modelled from the spec: feeding a sequence of frames in order. -/
def feedFrames (dict : List MessageDef) (st : RxConn) (frames : List (List Nat)) : RxConn :=
  frames.foldl (feedFrame dict) st

/-! ## Field View: typed access, widening, float bit reinterpretation -/

/-- Modelled from the spec: the integer value stored in a numeric field,
read from its raw bytes: unsigned bytes give the plain value, signed bytes
are interpreted in two's complement. -/
def storedInt (k : NumKind) (w : Nat) (bytes : List Nat) : Int :=
  match k with
  | .unsigned => (fromLE bytes : Int)
  | .signed => signedOfNat w (fromLE bytes)
  | .float => (fromLE bytes : Int)

/-- Modelled from the spec: conversion of an integer value to a target
integer type of bit width `W`, signed or unsigned, with the wrap-around
semantics of the underlying machine conversion. -/
def intToTarget (tSigned : Bool) (W : Nat) (v : Int) : Int :=
  let r := v % ((2 ^ W : Nat) : Int)
  if tSigned && decide (((2 ^ (W - 1) : Nat) : Int) ≤ r) then r - ((2 ^ W : Nat) : Int)
  else r

/-- Modelled from the spec: `read` of a numeric field into a `W`-bit
integer target - decode the stored bytes per the field's declared kind and
width, then convert to the requested numeric type. -/
def readAs (k : NumKind) (w : Nat) (tSigned : Bool) (W : Nat) (bytes : List Nat) : Int :=
  intToTarget tSigned W (storedInt k w bytes)

/-- Modelled from the spec: the numeric value a stored scalar denotes, as
an unbounded integer (float scalars denote their bit pattern here; they
are excluded from the widening law). -/
def scalarIntVal : Scalar → Int
  | .u n => (n : Int)
  | .i v => v
  | .f bits => (bits : Int)

/-- Modelled from the spec: the 32-bit two's-complement bit pattern of an
integer, as stored into a float-typed slot. -/
def int32Bits (n : Int) : Nat :=
  (n % (4294967296 : Int)).toNat

/-- Modelled from the spec: `floatUnpack` / `reinterpretAs` -
reinterprets the stored bytes of a float-declared field as a signed
integer bit pattern, without numeric conversion. -/
def floatUnpackInt (bytes : List Nat) : Int :=
  signedOfNat 4 (fromLE bytes)

/-- Modelled from the spec: the exact IEEE-754 binary32 value denoted by a
32-bit pattern, as a rational; `none` for the infinity/NaN exponent, where
no numeric value exists. -/
def floatBits32Val (b : Nat) : Option ℚ :=
  if b / 2 ^ 23 % 2 ^ 8 = 255 then none
  else
    some ((if b / 2 ^ 31 % 2 = 1 then (-1 : ℚ) else 1) *
      ((if b / 2 ^ 23 % 2 ^ 8 = 0 then ((b % 2 ^ 23 : Nat) : ℚ) * 2
        else ((2 ^ 23 + b % 2 ^ 23 : Nat) : ℚ) * (2 : ℚ) ^ (b / 2 ^ 23 % 2 ^ 8)) / 2 ^ 150))

/-! ## Field View as read-only accesses on a decoded message -/

/-- Modelled from the spec: byte offset and definition of a named field,
found by accumulating the widths of the fields before it in definition
order. -/
def fieldSpan : List FieldDef → String → Option (Nat × FieldDef)
  | [], _ => none
  | f :: fs, nm =>
    if f.fname = nm then some (0, f)
    else (fieldSpan fs nm).map (fun p => (f.width * elemCount f + p.1, p.2))

/-- Modelled from the spec: a decoded message as the Field View sees it -
its definition plus the raw payload byte buffer. -/
structure DecodedMsg where
  md : MessageDef
  payload : List Nat
deriving DecidableEq, Repr

/-- Modelled from the spec: the raw bytes of a named field of a decoded
message, `none` when the field is absent or the buffer too short. -/
def fieldBytes (msg : DecodedMsg) (nm : String) : Option (List Nat) :=
  (fieldSpan msg.md.fields nm).bind (fun p =>
    if p.1 + p.2.width * elemCount p.2 ≤ msg.payload.length then
      some ((msg.payload.drop p.1).take (p.2.width * elemCount p.2))
    else none)

/-- A Field View access: read a field as a byte sequence, as a `W`-bit
integer, or reinterpret its bytes as an integer bit pattern. -/
inductive ReadOp
  | asBytes (nm : String)
  | asInt (nm : String) (tS : Bool) (W : Nat)
  | unpackFloat (nm : String)

/-- Result of a Field View access. -/
inductive ReadResult
  | bytes (bs : List Nat)
  | int (v : Int)
  | missing
deriving DecidableEq, Repr

/-- Modelled from the spec: one Field View access on a decoded message,
returning the extracted result together with the message as the access
leaves it (the accessor reads the raw buffer and performs no write). -/
def runRead (msg : DecodedMsg) : ReadOp → ReadResult × DecodedMsg
  | .asBytes nm =>
    (match fieldBytes msg nm with
     | some bs => .bytes bs
     | none => .missing, msg)
  | .asInt nm tS W =>
    (match fieldSpan msg.md.fields nm, fieldBytes msg nm with
     | some p, some bs => .int (readAs p.2.kind p.2.width tS W bs)
     | _, _ => .missing, msg)
  | .unpackFloat nm =>
    (match fieldBytes msg nm with
     | some bs => .int (floatUnpackInt bs)
     | none => .missing, msg)

/-- Runs a sequence of Field View accesses, threading the message state
through every access. -/
def runReads (msg : DecodedMsg) : List ReadOp → List ReadResult × DecodedMsg
  | [] => ([], msg)
  | op :: ops =>
    ((runRead msg op).1 :: (runReads (runRead msg op).2 ops).1,
      (runReads (runRead msg op).2 ops).2)

/-! ## Connection: expectations, dispatch and interleavings -/

/-- Modelled from the spec: a registered expectation record - identity,
matching predicate, and the slot the dispatch path fills with the matched
message (the waiter's rendezvous). -/
structure ExpRec where
  eid : Nat
  pred : Message → Bool
  slot : Option Message

/-- An expectation record can still be satisfied by `msg`: it is unfilled
and its predicate matches. -/
def expActive (r : ExpRec) (msg : Message) : Bool :=
  r.slot.isNone && r.pred msg

/-- Modelled from the spec: the dispatch path checks a decoded message
against the active expectations in registration order, fills the first
match, and reports the single woken waiter's identity. -/
def matchFirst : List ExpRec → Message → List ExpRec × Option Nat
  | [], _ => ([], none)
  | r :: rs, msg =>
    if expActive r msg then ({ r with slot := some msg } :: rs, some r.eid)
    else (r :: (matchFirst rs msg).1, (matchFirst rs msg).2)

/-- Modelled from the spec: the observable state of one connection -
expectations in registration order, the plain receive queue, the log of
general-purpose callback invocations, and the log of woken waiters. -/
structure ConnSys where
  exps : List ExpRec
  queue : List Message
  cbLog : List Message
  wakes : List Nat

/-- Modelled from the spec: dispatching one decoded frame - (a) satisfy
the first matching active expectation and wake exactly its waiter, (b)
enqueue the message for plain consumers regardless, (c) forward it to the
general-purpose callbacks. -/
def dispatch (st : ConnSys) (msg : Message) : ConnSys :=
  { exps := (matchFirst st.exps msg).1
    queue := st.queue ++ [msg]
    cbLog := st.cbLog ++ [msg]
    wakes := st.wakes ++ (matchFirst st.exps msg).2.toList }

/-- An event of the interleaved execution: the application registers an
expectation, the I/O thread dispatches a decoded message, or the
application sends a request (no effect on the receive state). -/
inductive ConnEv
  | reg (eid : Nat) (p : Message → Bool)
  | disp (msg : Message)
  | sendReq (msg : Message)

/-- One interleaving step. -/
def stepEv (st : ConnSys) : ConnEv → ConnSys
  | .reg eid p => { st with exps := st.exps ++ [⟨eid, p, none⟩] }
  | .disp msg => dispatch st msg
  | .sendReq _ => st

/-- Executes an interleaving of application and I/O-thread events. -/
def execEvs (st : ConnSys) (evs : List ConnEv) : ConnSys :=
  evs.foldl stepEv st

/-- Modelled from the spec: what a later `receive` on an expectation
observes - the content of that expectation's slot. -/
def lookupSlot (st : ConnSys) (eid : Nat) : Option Message :=
  (st.exps.find? (fun r => r.eid == eid)).bind (fun r => r.slot)

/-! ## Synchronous receive with timeout -/

/-- Modelled from the spec: an Expectation handed to `receive` - its
predicate and whether it is still valid (not yet consumed). -/
structure Expct where
  pred : Message → Bool
  valid : Bool

/-- Modelled from the spec: `receive(Expectation, timeout)` - returns the
first decoded message matching the predicate that arrives strictly before
the timeout, fails (`none`, a Timeout) otherwise, and invalidates the
expectation on either outcome; an invalidated expectation can never be
satisfied. -/
def receiveExp (ex : Expct) (timeout : Nat) (arrivals : List (Nat × Message)) :
    Option Message × Expct :=
  if ex.valid then
    match arrivals.find? (fun a => decide (a.1 < timeout) && ex.pred a.2) with
    | some a => (some a.2, ⟨ex.pred, false⟩)
    | none => (none, ⟨ex.pred, false⟩)
  else (none, ex)

/-! ## Network runtime: connection discovery and lifecycle -/

/-- An inbound transport event: arrival time, peer identity, raw frame. -/
structure TraceEv where
  t : Nat
  peer : Nat
  frame : List Nat
deriving DecidableEq, Repr

/-- The event arrives before the timeout and carries a decodable,
checksum-valid frame. -/
def connEstablishing (dict : List MessageDef) (timeout : Nat) (ev : TraceEv) : Bool :=
  decide (ev.t < timeout) && (decodeFrame dict ev.frame).isSome

/-- Modelled from the spec: `awaitConnection(timeout)` - returns the peer
of the first received, decodable, checksum-valid frame arriving before the
timeout, `none` (a Timeout) otherwise. -/
def awaitConnection (dict : List MessageDef) (timeout : Nat) (trace : List TraceEv) :
    Option Nat :=
  (trace.find? (connEstablishing dict timeout)).map (fun ev => ev.peer)

/-- Modelled from the spec: a connection is Open or Closed. -/
inductive ConnState
  | opened
  | closed
deriving DecidableEq, Repr

/-- An operation attempted on a connection. -/
inductive ConnOp
  | send
  | expect
  | receive
  | subscribe
  | close
deriving DecidableEq, Repr

/-- Outcome of a connection operation. -/
inductive OpOutcome
  | ok
  | connectionClosed
deriving DecidableEq, Repr

/-- Modelled from the spec: the per-connection state machine - Closed is
terminal and every operation on a Closed connection fails with
ConnectionClosed. -/
def connStep : ConnState → ConnOp → ConnState × OpOutcome
  | .closed, _ => (.closed, .connectionClosed)
  | .opened, .close => (.closed, .ok)
  | .opened, _ => (.opened, .ok)

/-- Runs a sequence of operations, tracking the connection state. -/
def runOps (st : ConnState) (ops : List ConnOp) : ConnState :=
  ops.foldl (fun s op => (connStep s op).1) st

/-- Modelled from the spec: the network runtime's view of its
connections. -/
structure Runtime where
  conns : List ConnState
deriving DecidableEq, Repr

/-- Modelled from the spec: runtime teardown closes every connection. -/
def teardown (rt : Runtime) : Runtime :=
  ⟨rt.conns.map (fun _ => ConnState.closed)⟩

/-! ## Concrete fixtures used to evaluate the definitions -/

/-- A concrete message definition exercising every numeric kind and both
scalar (`alen = 0`) and array fields. -/
def exFields : List FieldDef :=
  [⟨"count", .unsigned, 1, 0⟩, ⟨"delta", .signed, 2, 0⟩, ⟨"val", .float, 4, 0⟩,
    ⟨"data", .unsigned, 1, 3⟩, ⟨"big", .signed, 8, 0⟩]

/-- A concrete message definition with id 42. -/
def exDef : MessageDef := ⟨42, "SENSOR", exFields⟩

/-- Concrete field values for `exDef`. -/
def exVals : List (List Scalar) :=
  [[.u 7], [.i (-5)], [.f 1234567], [.u 1, .u 2, .u 255], [.i (-123456789)]]

/-- A concrete message instance. -/
def exMsg : Message := ⟨exDef, exVals⟩

/-- A concrete encoded frame for `exMsg`. -/
def exGoodFrame : List Nat := encodeFrame 0 1 1 exMsg

/-- A concrete transport trace: one garbage frame, then a valid frame. -/
def exTrace : List TraceEv := [⟨0, 9, [0]⟩, ⟨1, 7, exGoodFrame⟩]

/-- A concrete expectation predicate: matches messages with id 9. -/
def exPred : Message → Bool := fun v => v.mdef.mid == 9

/-- A concrete reply message matching `exPred`. -/
def exReply : Message := ⟨⟨9, "RESP", []⟩, []⟩

/-- A concrete request message not matching `exPred`. -/
def exReq : Message := ⟨⟨5, "REQ", []⟩, []⟩

/-- Relates an expectation list to its evolution under dispatches of `v`:
every record keeps its identity and predicate, and its slot is unchanged
or was filled with `v`. -/
def slotShape (v : Message) (X X2 : List ExpRec) : Prop :=
  ∀ r2 ∈ X2, ∃ r ∈ X, r2.eid = r.eid ∧ r2.pred = r.pred ∧
    (r2.slot = r.slot ∨ r2.slot = some v)

/-- The decomposition invariant carried through an interleaving: the
expectation `⟨eid, p, sl⟩` sits in the list with every earlier record
unable to take `reply` and carrying a different identity. -/
def expsSplit (st : ConnSys) (eid : Nat) (p : Message → Bool) (sl : Option Message)
    (reply : Message) : Prop :=
  ∃ A B, st.exps = A ++ (⟨eid, p, sl⟩ : ExpRec) :: B ∧
    ∀ r ∈ A, expActive r reply = false ∧ r.eid ≠ eid

/-! ## Lemmas and claim theorems -/

theorem length_toLE (w n : Nat) : (toLE w n).length = w := by
  induction w generalizing n with
  | zero => rfl
  | succ w ih => simp [toLE, ih]

theorem toLE_lt (w n : Nat) : ∀ b ∈ toLE w n, b < 256 := by
  induction w generalizing n with
  | zero => simp [toLE]
  | succ w ih =>
    intro b hb
    simp only [toLE, List.mem_cons] at hb
    rcases hb with h | h
    · omega
    · exact ih _ _ h

theorem fromLE_toLE (w n : Nat) : fromLE (toLE w n) = n % 256 ^ w := by
  induction w generalizing n with
  | zero => simp [toLE, fromLE, Nat.mod_one]
  | succ w ih =>
    have hmul : n % (256 * 256 ^ w) = n % 256 + 256 * (n / 256 % 256 ^ w) :=
      Nat.mod_mul
    simp only [toLE, fromLE, ih]
    rw [pow_succ, mul_comm (256 ^ w) 256, hmul]

theorem fromLE_toLE_of_lt {w n : Nat} (h : n < 256 ^ w) :
    fromLE (toLE w n) = n := by
  rw [fromLE_toLE, Nat.mod_eq_of_lt h]

theorem length_encodeScalar (w : Nat) (s : Scalar) :
    (encodeScalar w s).length = w := by
  cases s <;> simp [encodeScalar, length_toLE]

theorem decodeScalar_encodeScalar {k : NumKind} {w : Nat} {s : Scalar}
    (h : scalarValidB k w s = true) :
    decodeScalar k w (encodeScalar w s) = s := by
  have hNpos : 0 < 256 ^ w := Nat.pos_pow_of_pos w (by norm_num)
  cases s with
  | u n =>
    simp only [scalarValidB, Bool.and_eq_true, decide_eq_true_eq] at h
    obtain ⟨hk, hn⟩ := h
    subst hk
    simp [decodeScalar, encodeScalar, fromLE_toLE_of_lt hn]
  | i v =>
    simp only [scalarValidB, Bool.and_eq_true, decide_eq_true_eq] at h
    obtain ⟨⟨hk, hlo⟩, hhi⟩ := h
    subst hk
    have hN2 : 256 ^ w / 2 * 2 ≤ 256 ^ w := Nat.div_mul_le_self _ _
    have hmod : v % ((256 ^ w : Nat) : Int) =
        if 0 ≤ v then v else v + ((256 ^ w : Nat) : Int) := by
      split
      · exact Int.emod_eq_of_lt (by assumption) (by
          have : v < ((256 ^ w / 2 : Nat) : Int) := hhi
          have hle : ((256 ^ w / 2 : Nat) : Int) ≤ ((256 ^ w : Nat) : Int) := by
            exact_mod_cast Nat.div_le_self _ _
          omega)
      · have h0 : (0 : Int) ≤ v + ((256 ^ w : Nat) : Int) := by
          have : -((256 ^ w / 2 : Nat) : Int) ≤ v := hlo
          have h2 : ((256 ^ w / 2 : Nat) : Int) ≤ ((256 ^ w : Nat) : Int) := by
            exact_mod_cast Nat.div_le_self _ _
          omega
        have h1 : v + ((256 ^ w : Nat) : Int) < ((256 ^ w : Nat) : Int) := by omega
        rw [← Int.add_mul_emod_self_left (a := v) (b := ((256 ^ w : Nat) : Int)) (c := 1)]
        simp only [mul_one]
        exact Int.emod_eq_of_lt h0 h1
    simp only [decodeScalar, encodeScalar]
    have hlt : (v % ((256 ^ w : Nat) : Int)).toNat < 256 ^ w := by
      rw [hmod]
      split <;> [skip; skip] <;>
        · have := hlo
          have := hhi
          have hcast : ((256 ^ w / 2 : Nat) : Int) * 2 ≤ ((256 ^ w : Nat) : Int) := by
            have := hN2
            push_cast
            omega
          omega
    rw [fromLE_toLE_of_lt hlt]
    congr 1
    rw [hmod]
    unfold signedOfNat
    by_cases h0 : 0 ≤ v
    · simp only [if_pos h0]
      have hvN : v.toNat < 256 ^ w / 2 := by omega
      rw [if_pos hvN]
      omega
    · simp only [if_neg h0]
      have hge : ¬ ((v + ((256 ^ w : Nat) : Int)).toNat < 256 ^ w / 2) := by
        have hcast : ((256 ^ w / 2 : Nat) : Int) * 2 ≤ ((256 ^ w : Nat) : Int) := by
          have := hN2
          push_cast
          omega
        omega
      rw [if_neg hge]
      have hcast : (0 : Int) ≤ v + ((256 ^ w : Nat) : Int) := by
        have hcast2 : ((256 ^ w / 2 : Nat) : Int) * 2 ≤ ((256 ^ w : Nat) : Int) := by
          have := hN2
          push_cast
          omega
        omega
      omega
  | f bits =>
    simp only [scalarValidB, Bool.and_eq_true, decide_eq_true_eq] at h
    obtain ⟨hk, hn⟩ := h
    subst hk
    simp [decodeScalar, encodeScalar, fromLE_toLE_of_lt hn]

theorem splitAtExact_append {n : Nat} {xs ys : List Nat} (h : xs.length = n) :
    splitAtExact n (xs ++ ys) = some (xs, ys) := by
  subst h
  simp [splitAtExact, List.take_left, List.drop_left]

theorem splitAtExact_exact {n : Nat} {xs : List Nat} (h : xs.length = n) :
    splitAtExact n xs = some (xs, []) := by
  subst h
  simp [splitAtExact]

theorem length_encodeElems (w : Nat) (vs : List Scalar) :
    (encodeElems w vs).length = vs.length * w := by
  induction vs with
  | nil => simp [encodeElems]
  | cons v vs ih =>
    simp [encodeElems, length_encodeScalar, ih, Nat.succ_mul, Nat.add_comm]

theorem decodeElems_encodeElems {k : NumKind} {w : Nat} {vs : List Scalar}
    (h : vs.all (scalarValidB k w) = true) (tail : List Nat) :
    decodeElems k w vs.length (encodeElems w vs ++ tail) = some (vs, tail) := by
  induction vs with
  | nil => simp [decodeElems, encodeElems]
  | cons v vs ih =>
    simp only [List.all_cons, Bool.and_eq_true] at h
    obtain ⟨hv, hvs⟩ := h
    simp only [List.length_cons, encodeElems, decodeElems, List.append_assoc]
    rw [splitAtExact_append (length_encodeScalar w v)]
    simp only [Option.bind_eq_bind, Option.some_bind]
    rw [ih hvs]
    simp [decodeScalar_encodeScalar hv]

theorem decodePayload_encodePayload {fs : List FieldDef} {vss : List (List Scalar)}
    (h : validPayload fs vss = true) :
    decodePayload fs (encodePayload fs vss) = some vss := by
  induction fs generalizing vss with
  | nil =>
    cases vss with
    | nil => simp [decodePayload, encodePayload]
    | cons v rest => simp [validPayload] at h
  | cons fdef fs ih =>
    cases vss with
    | nil => simp [validPayload] at h
    | cons vs rest =>
      simp only [validPayload, Bool.and_eq_true] at h
      obtain ⟨hf, hrest⟩ := h
      simp only [validField, Bool.and_eq_true, decide_eq_true_eq] at hf
      obtain ⟨hlen, hall⟩ := hf
      simp only [encodePayload, decodePayload]
      rw [← hlen, decodeElems_encodeElems hall]
      simp [ih hrest]

theorem checksum_lt (bs : List Nat) : checksum bs < 65536 :=
  Nat.mod_lt _ (by norm_num)

/-- Frame round trip: a valid message whose definition is found in the
dictionary under its id decodes from its own encoding. -/
theorem decodeFrame_encodeFrame {dict : List MessageDef} {m : Message}
    (seq sys comp : Nat)
    (hv : validPayload m.mdef.fields m.vals = true)
    (hlen : (encodePayload m.mdef.fields m.vals).length < 65536)
    (hid : m.mdef.mid < 16777216)
    (hdict : lookupById dict m.mdef.mid = some m.mdef) :
    decodeFrame dict (encodeFrame seq sys comp m) = some m := by
  have h256 : (65536 : Nat) = 256 ^ 2 := by norm_num
  have h2563 : (16777216 : Nat) = 256 ^ 3 := by norm_num
  simp only [encodeFrame, decodeFrame, if_pos rfl]
  simp only [List.append_assoc]
  rw [splitAtExact_append (length_toLE 2 _)]
  simp only [Option.bind_eq_bind, Option.some_bind]
  rw [splitAtExact_append (show ([seq % 256, sys % 256, comp % 256] : List Nat).length = 3
    from rfl)]
  simp only [Option.some_bind]
  rw [splitAtExact_append (length_toLE 3 _)]
  simp only [Option.some_bind]
  rw [fromLE_toLE_of_lt (h256 ▸ hlen), splitAtExact_append rfl]
  simp only [Option.some_bind]
  rw [splitAtExact_exact (length_toLE 2 _)]
  simp only [Option.some_bind, List.isEmpty_nil, Bool.true_and]
  rw [fromLE_toLE_of_lt (h256 ▸ checksum_lt _)]
  simp only [List.append_assoc, beq_self_eq_true, if_true]
  rw [fromLE_toLE_of_lt (h2563 ▸ hid), hdict]
  simp [decodePayload_encodePayload hv]

theorem corruptLast_cons (b : Nat) {xs : List Nat} (h : xs ≠ []) :
    corruptLast (b :: xs) = b :: corruptLast xs := by
  cases xs with
  | nil => exact absurd rfl h
  | cons c cs => rfl

theorem corruptLast_append (xs : List Nat) {ys : List Nat} (h : ys ≠ []) :
    corruptLast (xs ++ ys) = xs ++ corruptLast ys := by
  induction xs with
  | nil => rfl
  | cons x xs ih =>
    have hne : xs ++ ys ≠ [] := by
      cases xs <;> simp [h]
    rw [List.cons_append, corruptLast_cons x hne, ih, List.cons_append]

theorem toLE_two_ne_nil (n : Nat) : toLE 2 n ≠ [] := by
  intro h
  simpa [length_toLE] using congrArg List.length h

/-- A frame whose checksum trailer was corrupted in its last byte fails
checksum verification and is rejected by the decode layer. -/
theorem decodeFrame_corruptLast (dict : List MessageDef) (seq sys comp : Nat)
    (m : Message)
    (hlen : (encodePayload m.mdef.fields m.vals).length < 65536) :
    decodeFrame dict (corruptLast (encodeFrame seq sys comp m)) = none := by
  have h256 : (65536 : Nat) = 256 ^ 2 := by norm_num
  simp only [encodeFrame]
  rw [corruptLast_cons _ (by
    intro h
    rcases List.append_eq_nil.mp h with ⟨-, h2⟩
    exact toLE_two_ne_nil _ h2)]
  rw [corruptLast_append _ (toLE_two_ne_nil _)]
  simp only [decodeFrame, if_pos rfl]
  simp only [List.append_assoc]
  rw [splitAtExact_append (length_toLE 2 _)]
  simp only [Option.bind_eq_bind, Option.some_bind]
  rw [splitAtExact_append (show ([seq % 256, sys % 256, comp % 256] : List Nat).length = 3
    from rfl)]
  simp only [Option.some_bind]
  rw [splitAtExact_append (length_toLE 3 _)]
  simp only [Option.some_bind]
  rw [fromLE_toLE_of_lt (h256 ▸ hlen), splitAtExact_append rfl]
  simp only [Option.some_bind]
  rw [splitAtExact_exact (show (corruptLast (toLE 2 _)).length = 2 from rfl)]
  simp only [Option.some_bind]
  have hne : fromLE (corruptLast (toLE 2 (checksum (toLE 2
      (encodePayload m.mdef.fields m.vals).length ++
      ([seq % 256, sys % 256, comp % 256] ++ (toLE 3 m.mdef.mid ++
        encodePayload m.mdef.fields m.vals)))))) ≠
      checksum (toLE 2 (encodePayload m.mdef.fields m.vals).length ++
      ([seq % 256, sys % 256, comp % 256] ++ (toLE 3 m.mdef.mid ++
        encodePayload m.mdef.fields m.vals))) := by
    generalize checksum _ = crc
    show fromLE [crc % 256, (crc / 256 % 256 + 1) % 256] ≠ crc
    show crc % 256 + 256 * ((crc / 256 % 256 + 1) % 256 + 256 * 0) ≠ crc
    omega
  simp only [List.isEmpty_nil, Bool.true_and]
  rw [beq_eq_false_iff_ne.mpr hne]
  rfl

theorem float_denorm {m c : Nat} (hm : m < 2 ^ 23) (hc : 1 ≤ c) :
    m * 2 ≠ c * 2 ^ 150 := by
  intro h
  nlinarith

theorem float_sig_pos {e m : Nat} (he1 : 1 ≤ e) (he2 : e ≤ 254) (hm : m < 2 ^ 23) :
    (2 ^ 23 + m) * 2 ^ e ≠ (e * 2 ^ 23 + m) * 2 ^ 150 := by
  intro h
  rcases le_or_lt e 126 with hr | hr1
  · have hp : (2:ℕ) ^ e ≤ 2 ^ 126 := Nat.pow_le_pow_right (by norm_num) hr
    nlinarith
  rcases le_or_lt e 155 with hr | hr2
  · have hp : (2:ℕ) ^ e ≤ 2 ^ 155 := Nat.pow_le_pow_right (by norm_num) hr
    nlinarith
  rcases le_or_lt e 157 with hr | hr3
  · have hsplit : (2:ℕ) ^ e = 2 ^ (e - 150) * 2 ^ 150 := by
      rw [← pow_add]
      congr 1
      omega
    rw [hsplit, ← mul_assoc] at h
    have h3 := Nat.eq_of_mul_eq_mul_right (show 0 < (2:ℕ) ^ 150 by positivity) h
    interval_cases e <;> omega
  · have hp : (2:ℕ) ^ 158 ≤ 2 ^ e := Nat.pow_le_pow_right (by norm_num) (by omega)
    nlinarith

theorem float_sig_neg {e m : Nat} (he1 : 1 ≤ e) (he2 : e ≤ 254) (hm : m < 2 ^ 23) :
    (2 ^ 23 + m) * 2 ^ e + (e * 2 ^ 23 + m) * 2 ^ 150 ≠ 2 ^ 31 * 2 ^ 150 := by
  intro h
  rcases le_or_lt e 126 with hr | hr1
  · have hp : (2:ℕ) ^ e ≤ 2 ^ 126 := Nat.pow_le_pow_right (by norm_num) hr
    nlinarith
  rcases le_or_lt e 149 with hr | hr2
  · have hp : (2:ℕ) ^ e ≤ 2 ^ 149 := Nat.pow_le_pow_right (by norm_num) hr
    nlinarith
  rcases le_or_lt e 156 with hr | hr3
  · have hsplit : (2:ℕ) ^ e = 2 ^ (e - 150) * 2 ^ 150 := by
      rw [← pow_add]
      congr 1
      omega
    rw [hsplit, ← mul_assoc, ← Nat.add_mul] at h
    have h3 := Nat.eq_of_mul_eq_mul_right (show 0 < (2:ℕ) ^ 150 by positivity) h
    interval_cases e <;> omega
  · have hp : (2:ℕ) ^ 157 ≤ 2 ^ e := Nat.pow_le_pow_right (by norm_num) (by omega)
    nlinarith

/-- C4: for a float-declared field whose stored bytes are the bit pattern
of a nonzero 32-bit integer `n`, the bit-pattern reinterpretation
(`floatUnpack`) yields `n`, while the plain numeric read yields the IEEE
float value of those bytes, and the two differ for every nonzero `n`. -/
theorem float_reinterpret_ne_numeric (n : Int) (hn0 : n ≠ 0)
    (hlo : -(2 ^ 31) ≤ n) (hhi : n < 2 ^ 31) :
    floatUnpackInt (toLE 4 (int32Bits n)) = n ∧
      floatBits32Val (int32Bits n) ≠ some (n : ℚ) := by
  have hblt : int32Bits n < 4294967296 := by
    unfold int32Bits
    omega
  have hbInt : (int32Bits n : Int) = n % 4294967296 := by
    unfold int32Bits
    omega
  constructor
  · unfold floatUnpackInt
    rw [fromLE_toLE_of_lt (show int32Bits n < 256 ^ 4 by omega)]
    unfold signedOfNat
    split
    · omega
    · omega
  · intro heq
    unfold floatBits32Val at heq
    by_cases he255 : int32Bits n / 2 ^ 23 % 2 ^ 8 = 255
    · rw [if_pos he255] at heq
      exact Option.noConfusion heq
    rw [if_neg he255] at heq
    have heqv := Option.some.inj heq
    set b := int32Bits n with hb
    set e := b / 2 ^ 23 % 2 ^ 8 with he
    set m := b % 2 ^ 23 with hm
    set s := b / 2 ^ 31 % 2 with hs
    have hmlt : m < 2 ^ 23 := by omega
    have he254 : e ≤ 254 := by omega
    have hdecomp : b = s * 2 ^ 31 + e * 2 ^ 23 + m := by omega
    have hq150 : ((2 : ℚ) ^ 150) ≠ 0 := by positivity
    rcases le_or_lt 0 n with hpos | hneg
    · have hbn : (b : Int) = n := by omega
      have hb1 : 1 ≤ b := by omega
      have hs0 : ¬ s = 1 := by omega
      rw [if_neg hs0, one_mul, div_eq_iff hq150] at heqv
      have hnb : (n : ℚ) = ((b : ℕ) : ℚ) := by
        exact_mod_cast (congrArg (fun z : ℤ => (z : ℚ)) hbn).symm
      rw [hnb] at heqv
      by_cases he0 : e = 0
      · rw [if_pos he0] at heqv
        have hnat : m * 2 = b * 2 ^ 150 := by exact_mod_cast heqv
        exact float_denorm hmlt hb1 hnat
      · rw [if_neg he0] at heqv
        have hnat : (2 ^ 23 + m) * 2 ^ e = b * 2 ^ 150 := by exact_mod_cast heqv
        have hbe : b = e * 2 ^ 23 + m := by omega
        rw [hbe] at hnat
        exact float_sig_pos (by omega) he254 hmlt hnat
    · have hbn : (b : Int) = n + 4294967296 := by omega
      have hs1 : s = 1 := by omega
      rw [if_pos hs1, neg_one_mul] at heqv
      have hcInt : ((4294967296 - b : ℕ) : Int) = -n := by omega
      have hcq : -(n : ℚ) = ((4294967296 - b : ℕ) : ℚ) := by
        have hc2 := congrArg (fun z : ℤ => (z : ℚ)) hcInt
        push_cast at hc2 ⊢
        linarith
      have heqv2 : (if e = 0 then (m : ℚ) * 2 else ((2 ^ 23 + m : ℕ) : ℚ) * (2 : ℚ) ^ e) /
          2 ^ 150 = ((4294967296 - b : ℕ) : ℚ) := by
        rw [← hcq]
        linarith
      replace heqv := heqv2
      rw [div_eq_iff hq150] at heqv
      have hc1 : 1 ≤ 4294967296 - b := by omega
      by_cases he0 : e = 0
      · rw [if_pos he0] at heqv
        have hnat : m * 2 = (4294967296 - b) * 2 ^ 150 := by exact_mod_cast heqv
        exact float_denorm hmlt hc1 hnat
      · rw [if_neg he0] at heqv
        have hnat : (2 ^ 23 + m) * 2 ^ e = (4294967296 - b) * 2 ^ 150 := by
          exact_mod_cast heqv
        have hce : (4294967296 - b) + (e * 2 ^ 23 + m) = 2 ^ 31 := by omega
        have hsum : (2 ^ 23 + m) * 2 ^ e + (e * 2 ^ 23 + m) * 2 ^ 150 =
            2 ^ 31 * 2 ^ 150 := by
          rw [hnat, ← Nat.add_mul, hce]
        exact float_sig_neg (by omega) he254 hmlt hsum

/-- C5 (amended): reading a sub-32-bit numeric field into a `W`-bit
integer target with `W ≥ 32` yields the original value exactly whenever
the target is signed or the value is nonnegative; a negative signed value
read into an unsigned target yields the sign-extended two's-complement
pattern, i.e. the value plus `2 ^ W`. -/
theorem readAs_widens (k : NumKind) (w : Nat) (tS : Bool) (W : Nat) (s : Scalar)
    (hk : k ≠ .float) (hw : w = 1 ∨ w = 2) (hW : 32 ≤ W)
    (hv : scalarValidB k w s = true) :
    readAs k w tS W (encodeScalar w s) =
      if tS = false ∧ scalarIntVal s < 0 then scalarIntVal s + ((2 ^ W : Nat) : Int)
      else scalarIntVal s := by
  have hwlt : 256 ^ w ≤ 65536 := by
    rcases hw with h | h <;> subst h <;> norm_num
  have hP : (65536 : Int) ≤ ((2 ^ W : Nat) : Int) := by
    have h32 : (2 : Nat) ^ 32 ≤ 2 ^ W := Nat.pow_le_pow_right (by norm_num) hW
    exact_mod_cast le_trans (by norm_num) h32
  have hQ : (2147483648 : Int) ≤ ((2 ^ (W - 1) : Nat) : Int) := by
    have h31 : (2 : Nat) ^ 31 ≤ 2 ^ (W - 1) := Nat.pow_le_pow_right (by norm_num) (by omega)
    exact_mod_cast le_trans (by norm_num) h31
  have hPQ : ((2 ^ W : Nat) : Int) = 2 * ((2 ^ (W - 1) : Nat) : Int) := by
    have : (2 : Nat) ^ W = 2 * 2 ^ (W - 1) := by
      conv_lhs => rw [show W = (W - 1) + 1 by omega]
      rw [pow_succ]
      ring
    exact_mod_cast congrArg (fun x : Nat => (x : Int)) this
  cases k with
  | float => exact absurd rfl hk
  | unsigned =>
    cases s with
    | i v => simp [scalarValidB] at hv
    | f bits => simp [scalarValidB] at hv
    | u n =>
      simp only [scalarValidB, Bool.and_eq_true, decide_eq_true_eq] at hv
      have hn : n < 256 ^ w := hv.2
      simp only [readAs, storedInt, encodeScalar, fromLE_toLE_of_lt hn, intToTarget]
      have hr : ((n : Int)) % ((2 ^ W : Nat) : Int) = (n : Int) := by
        refine Int.emod_eq_of_lt (by positivity) ?_
        have : (n : Int) < 65536 := by exact_mod_cast lt_of_lt_of_le hn hwlt
        omega
      rw [hr]
      have hcond : ¬ (((2 ^ (W - 1) : Nat) : Int) ≤ (n : Int)) := by
        have : (n : Int) < 65536 := by exact_mod_cast lt_of_lt_of_le hn hwlt
        omega
      simp only [hcond, decide_False, Bool.and_false, if_false]
      have : ¬ ((n : Int) < 0) := not_lt.mpr (by positivity)
      simp only [scalarIntVal, this, and_false, if_neg, if_false]
      simp
  | signed =>
    cases s with
    | u n => simp [scalarValidB] at hv
    | f bits => simp [scalarValidB] at hv
    | i v =>
      have hdec := decodeScalar_encodeScalar (k := .signed) (w := w) (s := .i v) hv
      simp only [decodeScalar, encodeScalar, Scalar.i.injEq] at hdec
      simp only [scalarValidB, Bool.and_eq_true, decide_eq_true_eq] at hv
      obtain ⟨⟨-, hlo⟩, hhi⟩ := hv
      have hhalf : ((256 ^ w / 2 : Nat) : Int) ≤ 32768 := by
        have : 256 ^ w / 2 ≤ 65536 / 2 := Nat.div_le_div_right hwlt
        exact_mod_cast le_trans this (by norm_num)
      simp only [readAs, storedInt, encodeScalar, hdec, intToTarget, scalarIntVal]
      rcases le_or_lt 0 v with h0 | h0
      · have hr : v % ((2 ^ W : Nat) : Int) = v := by
          refine Int.emod_eq_of_lt h0 (by omega)
        rw [hr]
        have hcond : ¬ (((2 ^ (W - 1) : Nat) : Int) ≤ v) := by omega
        simp only [hcond, decide_False, Bool.and_false, if_false]
        have : ¬ (v < 0) := by omega
        simp [this]
      · have hr : v % ((2 ^ W : Nat) : Int) = v + ((2 ^ W : Nat) : Int) := by
          rw [show v % ((2 ^ W : Nat) : Int) = (v + ((2 ^ W : Nat) : Int) * 1) %
            ((2 ^ W : Nat) : Int) from
            (Int.add_mul_emod_self_left v ((2 ^ W : Nat) : Int) 1).symm]
          simp only [mul_one]
          refine Int.emod_eq_of_lt (by omega) (by omega)
        rw [hr]
        have hcond : ((2 ^ (W - 1) : Nat) : Int) ≤ v + ((2 ^ W : Nat) : Int) := by omega
        simp only [hcond, decide_True, Bool.and_true]
        cases tS with
        | false => simp [h0]
        | true => simp [h0]

theorem matchFirst_all_inactive {v : Message} :
    ∀ {l : List ExpRec}, (∀ r ∈ l, expActive r v = false) →
      matchFirst l v = (l, none)
  | [], _ => rfl
  | r :: rs, h => by
    have hr := h r (List.mem_cons_self r rs)
    have ih := matchFirst_all_inactive (fun x hx => h x (List.mem_cons_of_mem r hx))
    simp [matchFirst, hr, ih]

theorem matchFirst_first {v : Message} {r0 : ExpRec} (hr : expActive r0 v = true) :
    ∀ {A : List ExpRec} (B : List ExpRec), (∀ r ∈ A, expActive r v = false) →
      matchFirst (A ++ r0 :: B) v =
        (A ++ { r0 with slot := some v } :: B, some r0.eid)
  | [], B, _ => by simp [matchFirst, hr]
  | a :: A, B, hA => by
    have ha := hA a (List.mem_cons_self a A)
    have ih := matchFirst_first hr B (fun x hx => hA x (List.mem_cons_of_mem a hx))
    simp [matchFirst, ha, ih]

theorem matchFirst_none_eq {v : Message} :
    ∀ {l : List ExpRec}, (matchFirst l v).2 = none → (matchFirst l v).1 = l
  | [], _ => rfl
  | r :: rs, h => by
    by_cases ha : expActive r v = true
    · simp [matchFirst, ha] at h
    · simp only [Bool.not_eq_true] at ha
      simp only [matchFirst, ha, Bool.false_eq_true, if_false] at h ⊢
      rw [matchFirst_none_eq h]

theorem matchFirst_split {v : Message} :
    ∀ {l : List ExpRec}, matchFirst l v = (l, none) ∨
      ∃ A r0 B, l = A ++ r0 :: B ∧ (∀ r ∈ A, expActive r v = false) ∧
        expActive r0 v = true ∧
        matchFirst l v = (A ++ { r0 with slot := some v } :: B, some r0.eid)
  | [] => Or.inl rfl
  | r :: rs => by
    by_cases ha : expActive r v = true
    · refine Or.inr ⟨[], r, rs, rfl, by simp, ha, ?_⟩
      simp [matchFirst, ha]
    · simp only [Bool.not_eq_true] at ha
      rcases matchFirst_split (v := v) (l := rs) with h | ⟨A, r0, B, hdec, hA, hr0, heq⟩
      · refine Or.inl ?_
        simp [matchFirst, ha, h]
      · refine Or.inr ⟨r :: A, r0, B, by rw [hdec, List.cons_append], ?_, hr0, ?_⟩
        · intro x hx
          rcases List.mem_cons.mp hx with hx | hx
          · exact hx ▸ ha
          · exact hA x hx
        · simp [matchFirst, ha, heq]

theorem slotShape_refl (v : Message) (X : List ExpRec) : slotShape v X X :=
  fun r2 h2 => ⟨r2, h2, rfl, rfl, Or.inl rfl⟩

theorem matchFirst_shape (v : Message) :
    ∀ l : List ExpRec, slotShape v l (matchFirst l v).1
  | [] => by intro r2 h2; simp [matchFirst] at h2
  | r :: rs => by
    by_cases ha : expActive r v = true
    · simp only [matchFirst, ha, if_true]
      intro r2 h2
      rcases List.mem_cons.mp h2 with h2 | h2
      · exact ⟨r, List.mem_cons_self r rs, by simp [h2], by simp [h2], Or.inr (by simp [h2])⟩
      · exact ⟨r2, List.mem_cons_of_mem r h2, rfl, rfl, Or.inl rfl⟩
    · simp only [matchFirst, ha, if_false]
      intro r2 h2
      rcases List.mem_cons.mp h2 with h2 | h2
      · exact ⟨r, List.mem_cons_self r rs, by simp [h2], by simp [h2], Or.inl (by simp [h2])⟩
      · rcases matchFirst_shape v rs r2 h2 with ⟨r3, h3, he3, hp3, hs3⟩
        exact ⟨r3, List.mem_cons_of_mem r h3, he3, hp3, hs3⟩

theorem matchFirst_skip_middle {v : Message} {e0 : ExpRec} (he0 : expActive e0 v = false) :
    ∀ (A B : List ExpRec), ∃ A2 B2,
      (matchFirst (A ++ e0 :: B) v).1 = A2 ++ e0 :: B2 ∧
        slotShape v A A2 ∧ slotShape v B B2
  | [], B => by
    refine ⟨[], (matchFirst B v).1, ?_, slotShape_refl v [], matchFirst_shape v B⟩
    simp [matchFirst, he0]
  | a :: A, B => by
    by_cases ha : expActive a v = true
    · refine ⟨{ a with slot := some v } :: A, B, ?_, ?_, slotShape_refl v B⟩
      · simp [matchFirst, ha]
      · intro r2 h2
        rcases List.mem_cons.mp h2 with h2 | h2
        · exact ⟨a, List.mem_cons_self a A, by simp [h2], by simp [h2], Or.inr (by simp [h2])⟩
        · exact ⟨r2, List.mem_cons_of_mem a h2, rfl, rfl, Or.inl rfl⟩
    · rcases matchFirst_skip_middle he0 A B with ⟨A2, B2, heq, hA, hB⟩
      refine ⟨a :: A2, B2, ?_, ?_, hB⟩
      · simp [matchFirst, ha, heq]
      · intro r2 h2
        rcases List.mem_cons.mp h2 with h2 | h2
        · exact ⟨a, List.mem_cons_self a A, by simp [h2], by simp [h2], Or.inl (by simp [h2])⟩
        · rcases hA r2 h2 with ⟨r3, h3, he3, hp3, hs3⟩
          exact ⟨r3, List.mem_cons_of_mem a h3, he3, hp3, hs3⟩

theorem expsSplit_step {eid : Nat} {p : Message → Bool} {sl : Option Message}
    {reply : Message} {st : ConnSys} {ev : ConnEv}
    (hInv : expsSplit st eid p sl reply)
    (hdisp : ∀ v, ev = ConnEv.disp v → expActive (⟨eid, p, sl⟩ : ExpRec) v = false)
    (hreg : ∀ e2 q, ev = ConnEv.reg e2 q → e2 ≠ eid) :
    expsSplit (stepEv st ev) eid p sl reply := by
  rcases hInv with ⟨A, B, heq, hA⟩
  cases ev with
  | reg e2 q =>
    exact ⟨A, B ++ [⟨e2, q, none⟩], by
      simp [stepEv, heq, List.append_assoc], hA⟩
  | sendReq v => exact ⟨A, B, heq, hA⟩
  | disp v =>
    rcases matchFirst_skip_middle (hdisp v rfl) A B with ⟨A2, B2, hsplit, hshA, -⟩
    refine ⟨A2, B2, ?_, ?_⟩
    · show (dispatch st v).exps = _
      simp only [dispatch]
      rw [heq, hsplit]
    · intro r2 h2
      rcases hshA r2 h2 with ⟨r3, h3, he3, hp3, hs3⟩
      rcases hA r3 h3 with ⟨hact3, hne3⟩
      constructor
      · rcases hs3 with hs3 | hs3
        · simpa [expActive, hs3, hp3] using hact3
        · simp [expActive, hs3]
      · rw [he3]
        exact hne3

theorem expsSplit_exec {eid : Nat} {p : Message → Bool} {sl : Option Message}
    {reply : Message} :
    ∀ (evs : List ConnEv) (st : ConnSys),
      expsSplit st eid p sl reply →
      (∀ v, ConnEv.disp v ∈ evs → expActive (⟨eid, p, sl⟩ : ExpRec) v = false) →
      (∀ e2 q, ConnEv.reg e2 q ∈ evs → e2 ≠ eid) →
      expsSplit (execEvs st evs) eid p sl reply
  | [], st, hInv, _, _ => hInv
  | ev :: evs, st, hInv, hdisp, hreg => by
    have hstep := expsSplit_step hInv
      (fun v hv => hdisp v (hv ▸ List.mem_cons_self ev evs))
      (fun e2 q hq => hreg e2 q (hq ▸ List.mem_cons_self ev evs))
    exact expsSplit_exec evs (stepEv st ev) hstep
      (fun v hv => hdisp v (List.mem_cons_of_mem ev hv))
      (fun e2 q hq => hreg e2 q (List.mem_cons_of_mem ev hq))

theorem lookupSlot_of_split {st : ConnSys} {eid : Nat} {p : Message → Bool}
    {sl : Option Message} {reply : Message} (hInv : expsSplit st eid p sl reply) :
    lookupSlot st eid = sl := by
  rcases hInv with ⟨A, B, heq, hA⟩
  unfold lookupSlot
  rw [heq]
  clear heq
  induction A with
  | nil => simp
  | cons a A ih =>
    have hne := (hA a (List.mem_cons_self a A)).2
    rw [List.cons_append, List.find?_cons_of_neg _ (by simpa using hne)]
    exact ih (fun r h => hA r (List.mem_cons_of_mem a h))

/-! ## Claim theorems -/

/-- C1: for every Message built from a valid MessageDefinition, decoding
the bytes produced by encoding it yields a Message whose field values
equal the original's exactly, for every supported numeric kind
(unsigned/signed/float of each byte width) and every array length
including zero-length (scalar) fields. -/
theorem message_roundtrip_law (dict : List MessageDef) (seq sys comp : Nat) (m : Message)
    (hv : validPayload m.mdef.fields m.vals = true)
    (hlen : (encodePayload m.mdef.fields m.vals).length < 65536)
    (hid : m.mdef.mid < 16777216)
    (hdict : lookupById dict m.mdef.mid = some m.mdef) :
    decodeFrame dict (encodeFrame seq sys comp m) = some m :=
  decodeFrame_encodeFrame seq sys comp hv hlen hid hdict

/-- Witness for C1 at a concrete message covering all numeric kinds and
array lengths. -/
theorem message_roundtrip_law_witness :
    validPayload exMsg.mdef.fields exMsg.vals = true ∧
    (encodePayload exMsg.mdef.fields exMsg.vals).length < 65536 ∧
    exMsg.mdef.mid < 16777216 ∧
    lookupById [exDef] exMsg.mdef.mid = some exMsg.mdef ∧
    decodeFrame [exDef] (encodeFrame 0 1 1 exMsg) = some exMsg :=
  ⟨by decide, by decide, by decide, by decide,
    message_roundtrip_law [exDef] 0 1 1 exMsg (by decide) (by decide) (by decide) (by decide)⟩

/-- C7: a frame whose checksum does not verify is dropped at the decode
layer - no error surfaces, the connection's observable state is unchanged
- and a subsequent valid frame of the same message type is still decoded
and delivered correctly. -/
theorem corrupted_frame_dropped (dict : List MessageDef) (st : RxConn)
    (seq sys comp : Nat) (m : Message)
    (hv : validPayload m.mdef.fields m.vals = true)
    (hlen : (encodePayload m.mdef.fields m.vals).length < 65536)
    (hid : m.mdef.mid < 16777216)
    (hdict : lookupById dict m.mdef.mid = some m.mdef) :
    decodeFrame dict (corruptLast (encodeFrame seq sys comp m)) = none ∧
    feedFrame dict st (corruptLast (encodeFrame seq sys comp m)) = st ∧
    feedFrames dict st
        [corruptLast (encodeFrame seq sys comp m), encodeFrame seq sys comp m] =
      { st with delivered := st.delivered ++ [m] } := by
  have h1 := decodeFrame_corruptLast dict seq sys comp m hlen
  refine ⟨h1, ?_, ?_⟩
  · simp [feedFrame, h1]
  · simp [feedFrames, feedFrame, h1,
      decodeFrame_encodeFrame seq sys comp hv hlen hid hdict]

/-- Witness for C7 at a concrete corrupted-then-valid frame pair. -/
theorem corrupted_frame_dropped_witness :
    validPayload exMsg.mdef.fields exMsg.vals = true ∧
    decodeFrame [exDef] (corruptLast (encodeFrame 0 1 1 exMsg)) = none ∧
    feedFrames [exDef] ⟨true, [], 0⟩
        [corruptLast (encodeFrame 0 1 1 exMsg), encodeFrame 0 1 1 exMsg] =
      ⟨true, [exMsg], 0⟩ :=
  ⟨by decide,
    (corrupted_frame_dropped [exDef] ⟨true, [], 0⟩ 0 1 1 exMsg
      (by decide) (by decide) (by decide) (by decide)).1,
    (corrupted_frame_dropped [exDef] ⟨true, [], 0⟩ 0 1 1 exMsg
      (by decide) (by decide) (by decide) (by decide)).2.2⟩

/-- C3: dispatching a decoded frame (a) checks it against the active
expectations in registration order, satisfies the first whose predicate
matches and wakes exactly one waiter - and touches no expectation when
none matches - then (b) enqueues the message for plain consumers
regardless of a match, and (c) forwards it to the general-purpose
callbacks. -/
theorem dispatch_order (st : ConnSys) (v : Message) :
    ((∀ r ∈ st.exps, expActive r v = false) →
      (dispatch st v).exps = st.exps ∧ (dispatch st v).wakes = st.wakes) ∧
    (∀ A r0 B, st.exps = A ++ r0 :: B → (∀ r ∈ A, expActive r v = false) →
      expActive r0 v = true →
      (dispatch st v).exps = A ++ { r0 with slot := some v } :: B ∧
        (dispatch st v).wakes = st.wakes ++ [r0.eid]) ∧
    (dispatch st v).queue = st.queue ++ [v] ∧
    (dispatch st v).cbLog = st.cbLog ++ [v] := by
  refine ⟨?_, ?_, rfl, rfl⟩
  · intro h
    have hm := matchFirst_all_inactive h
    simp [dispatch, hm]
  · intro A r0 B hdec hA hr0
    have hm := matchFirst_first hr0 B hA
    rw [← hdec] at hm
    simp [dispatch, hm]

/-- Witness for C3 at a concrete connection with one matching
expectation. -/
theorem dispatch_order_witness :
    expActive (⟨1, exPred, none⟩ : ExpRec) exReply = true ∧
    ((dispatch ⟨[⟨1, exPred, none⟩], [], [], []⟩ exReply).exps =
        [] ++ (⟨1, exPred, some exReply⟩ : ExpRec) :: [] ∧
      (dispatch ⟨[⟨1, exPred, none⟩], [], [], []⟩ exReply).wakes = [] ++ [1]) :=
  ⟨by decide,
    (dispatch_order ⟨[⟨1, exPred, none⟩], [], [], []⟩ exReply).2.1
      [] ⟨1, exPred, none⟩ [] rfl (by simp) (by decide)⟩

/-- C2: if an expectation is registered before the request is sent, then
for every interleaving with the I/O thread - including one where the
matching reply is dispatched immediately after registration and before
`receive` is called - the later `receive` observes the reply; it is never
missed. -/
theorem expect_before_send_no_race (st0 : ConnSys) (eid : Nat) (p : Message → Bool)
    (midEvs postEvs : List ConnEv) (reply : Message)
    (hp : p reply = true)
    (h0a : ∀ r ∈ st0.exps, expActive r reply = false)
    (h0b : ∀ r ∈ st0.exps, r.eid ≠ eid)
    (hmidd : ∀ v, ConnEv.disp v ∈ midEvs → p v = false)
    (hmidr : ∀ e2 q, ConnEv.reg e2 q ∈ midEvs → e2 ≠ eid)
    (hpostr : ∀ e2 q, ConnEv.reg e2 q ∈ postEvs → e2 ≠ eid) :
    lookupSlot
      (execEvs st0 (ConnEv.reg eid p :: (midEvs ++ ConnEv.disp reply :: postEvs)))
      eid = some reply := by
  have hstep1 :
      execEvs st0 (ConnEv.reg eid p :: (midEvs ++ ConnEv.disp reply :: postEvs)) =
        execEvs (execEvs (stepEv st0 (ConnEv.reg eid p)) midEvs)
          (ConnEv.disp reply :: postEvs) := by
    unfold execEvs
    rw [List.foldl_cons, List.foldl_append]
  rw [hstep1]
  have hInv1 : expsSplit (stepEv st0 (ConnEv.reg eid p)) eid p none reply := by
    refine ⟨st0.exps, [], ?_, fun r h => ⟨h0a r h, h0b r h⟩⟩
    rfl
  have hInv2 : expsSplit (execEvs (stepEv st0 (ConnEv.reg eid p)) midEvs)
      eid p none reply :=
    expsSplit_exec midEvs _ hInv1
      (fun v hv => by simp [expActive, hmidd v hv]) hmidr
  rcases hInv2 with ⟨A, B, heq, hA⟩
  have hmatch := matchFirst_first
    (show expActive (⟨eid, p, none⟩ : ExpRec) reply = true by simp [expActive, hp])
    B (fun r h => (hA r h).1)
  have hInv3 : expsSplit
      (stepEv (execEvs (stepEv st0 (ConnEv.reg eid p)) midEvs) (ConnEv.disp reply))
      eid p (some reply) reply := by
    refine ⟨A, B, ?_, hA⟩
    show (dispatch _ reply).exps = _
    simp only [dispatch]
    rw [heq, hmatch]
  have hInv4 : expsSplit
      (execEvs (stepEv (execEvs (stepEv st0 (ConnEv.reg eid p)) midEvs)
        (ConnEv.disp reply)) postEvs) eid p (some reply) reply :=
    expsSplit_exec postEvs _ hInv3 (fun v hv => by simp [expActive]) hpostr
  calc lookupSlot (execEvs (execEvs (stepEv st0 (ConnEv.reg eid p)) midEvs)
        (ConnEv.disp reply :: postEvs)) eid
      = lookupSlot (execEvs (stepEv (execEvs (stepEv st0 (ConnEv.reg eid p)) midEvs)
          (ConnEv.disp reply)) postEvs) eid := rfl
    _ = some reply := lookupSlot_of_split hInv4

/-- Witness for C2: on an empty connection, register, send, have the I/O
thread dispatch the reply, and observe it. -/
theorem expect_before_send_no_race_witness :
    exPred exReply = true ∧
    lookupSlot
      (execEvs ⟨[], [], [], []⟩
        (ConnEv.reg 1 exPred :: ([ConnEv.sendReq exReq] ++ ConnEv.disp exReply :: [])))
      1 = some exReply :=
  ⟨by decide,
    expect_before_send_no_race ⟨[], [], [], []⟩ 1 exPred [ConnEv.sendReq exReq] []
      exReply (by decide) (by simp) (by simp)
      (by intro v hv; simp at hv)
      (by intro e2 q hq; simp at hq)
      (by intro e2 q hq; simp at hq)⟩

/-- Witness for C4 at the spec's example `n = 42`. -/
theorem float_reinterpret_ne_numeric_witness :
    (42 : Int) ≠ 0 ∧
    (floatUnpackInt (toLE 4 (int32Bits 42)) = 42 ∧
      floatBits32Val (int32Bits 42) ≠ some ((42 : Int) : ℚ)) :=
  ⟨by decide, float_reinterpret_ne_numeric 42 (by decide) (by decide) (by decide)⟩

/-- C5 counterexample: the signed 1-byte field storing `-1` read into an
unsigned 32-bit target yields `4294967295`, not the original value `-1`,
so reading into "any integer target type of 32 bits or wider" does not
always yield the original value exactly. -/
theorem widening_counterexample :
    decodeScalar .signed 1 (encodeScalar 1 (.i (-1))) = .i (-1) ∧
    scalarValidB .signed 1 (.i (-1)) = true ∧
    readAs .signed 1 false 32 (encodeScalar 1 (.i (-1))) = 4294967295 ∧
    readAs .signed 1 false 32 (encodeScalar 1 (.i (-1))) ≠ -1 := by
  decide

/-- Witness for the amended C5 at a concrete negative signed byte and an
unsigned 32-bit target. -/
theorem readAs_widens_witness :
    scalarValidB NumKind.signed 1 (.i (-1)) = true ∧
    readAs NumKind.signed 1 false 32 (encodeScalar 1 (.i (-1))) =
      (if false = false ∧ scalarIntVal (.i (-1)) < 0 then
        scalarIntVal (.i (-1)) + ((2 ^ 32 : Nat) : Int)
      else scalarIntVal (.i (-1))) :=
  ⟨by decide,
    readAs_widens NumKind.signed 1 false 32 (.i (-1)) (by decide) (Or.inl rfl)
      (by norm_num) (by decide)⟩

/-- C6: `receive(Expectation, timeout)` returns a message exactly when a
decoded message matching the expectation's predicate arrives before the
timeout, fails (Timeout) otherwise, and in both outcomes the expectation
is invalidated, so a second receive on it can never be satisfied. -/
theorem receive_exp_spec (ex : Expct) (timeout : Nat) (arrivals : List (Nat × Message))
    (hvalid : ex.valid = true) :
    ((receiveExp ex timeout arrivals).1.isSome = true ↔
      ∃ a ∈ arrivals, a.1 < timeout ∧ ex.pred a.2 = true) ∧
    (receiveExp ex timeout arrivals).2.valid = false ∧
    (∀ t2 ar2, (receiveExp (receiveExp ex timeout arrivals).2 t2 ar2).1 = none) := by
  unfold receiveExp
  rw [if_pos hvalid]
  cases hfind : arrivals.find? (fun a => decide (a.1 < timeout) && ex.pred a.2) with
  | none =>
    have hnone := List.find?_eq_none.mp hfind
    refine ⟨?_, rfl, ?_⟩
    · simp only [Option.isSome_none]
      constructor
      · intro h
        exact absurd h (by simp)
      · rintro ⟨a, ha, h1, h2⟩
        have := hnone a ha
        simp [h1, h2] at this
    · intro t2 ar2
      simp [receiveExp]
  | some a =>
    have hmem := List.mem_of_find?_eq_some hfind
    have hpa := List.find?_some hfind
    simp only [Bool.and_eq_true, decide_eq_true_eq] at hpa
    refine ⟨?_, rfl, ?_⟩
    · simp only [Option.isSome_some, true_iff]
      exact ⟨a, hmem, hpa.1, hpa.2⟩
    · intro t2 ar2
      simp [receiveExp]

/-- Witness for C6 at a concrete valid expectation and arrival list. -/
theorem receive_exp_spec_witness :
    (⟨exPred, true⟩ : Expct).valid = true ∧
    (receiveExp ⟨exPred, true⟩ 5 [(1, exReply)]).1.isSome = true ∧
    (receiveExp ⟨exPred, true⟩ 5 [(1, exReply)]).2.valid = false ∧
    (receiveExp (receiveExp ⟨exPred, true⟩ 5 [(1, exReply)]).2 7 [(1, exReply)]).1 =
      none :=
  ⟨rfl,
    (receive_exp_spec ⟨exPred, true⟩ 5 [(1, exReply)] rfl).1.mpr
      ⟨(1, exReply), by simp, by decide, by decide⟩,
    (receive_exp_spec ⟨exPred, true⟩ 5 [(1, exReply)] rfl).2.1,
    (receive_exp_spec ⟨exPred, true⟩ 5 [(1, exReply)] rfl).2.2 7 [(1, exReply)]⟩

/-- C8: `awaitConnection(timeout)` returns a connection exactly when a
decodable, checksum-valid frame from some peer arrives before the timeout
- the first such frame's peer - and fails (Timeout) otherwise; frames
that fail decoding or checksum verification do not establish a
connection. -/
theorem awaitConnection_spec (dict : List MessageDef) (timeout : Nat)
    (trace : List TraceEv) :
    ((awaitConnection dict timeout trace).isSome = true ↔
      ∃ ev ∈ trace, ev.t < timeout ∧ (decodeFrame dict ev.frame).isSome = true) ∧
    (∀ pre ev post, trace = pre ++ ev :: post →
      (∀ x ∈ pre, connEstablishing dict timeout x = false) →
      ev.t < timeout → (decodeFrame dict ev.frame).isSome = true →
      awaitConnection dict timeout trace = some ev.peer) ∧
    ((∀ ev ∈ trace, connEstablishing dict timeout ev = false) →
      awaitConnection dict timeout trace = none) := by
  refine ⟨?_, ?_, ?_⟩
  · unfold awaitConnection
    rw [Option.isSome_map']
    rw [List.find?_isSome]
    constructor
    · rintro ⟨ev, hmem, hok⟩
      simp only [connEstablishing, Bool.and_eq_true, decide_eq_true_eq] at hok
      exact ⟨ev, hmem, hok.1, hok.2⟩
    · rintro ⟨ev, hmem, h1, h2⟩
      exact ⟨ev, hmem, by simp [connEstablishing, h1, h2]⟩
  · intro pre ev post hdec hpre h1 h2
    subst hdec
    unfold awaitConnection
    have hfind : (pre ++ ev :: post).find? (connEstablishing dict timeout) = some ev := by
      induction pre with
      | nil =>
        rw [List.nil_append, List.find?_cons_of_pos]
        simp [connEstablishing, h1, h2]
      | cons x pre ih =>
        rw [List.cons_append, List.find?_cons_of_neg]
        · exact ih (fun y hy => hpre y (List.mem_cons_of_mem x hy))
        · simp [hpre x (List.mem_cons_self x pre)]
    rw [hfind]
    rfl
  · intro hall
    unfold awaitConnection
    rw [List.find?_eq_none.mpr (fun x hx => by simp [hall x hx])]
    rfl

/-- Witness for C8: a garbage frame does not establish the connection,
the following valid frame from peer 7 does. -/
theorem awaitConnection_spec_witness :
    (1 : Nat) < 5 ∧ (decodeFrame [exDef] exGoodFrame).isSome = true ∧
    awaitConnection [exDef] 5 exTrace = some 7 :=
  ⟨by decide, by decide,
    (awaitConnection_spec [exDef] 5 exTrace).2.1 [⟨0, 9, [0]⟩] ⟨1, 7, exGoodFrame⟩ []
      rfl (by decide) (by decide) (by decide)⟩

/-- C9: every connection is Open or Closed, Closed is terminal under any
sequence of operations, send/expect/receive/subscribe on a Closed
connection fail with ConnectionClosed, and after runtime teardown every
connection is Closed. -/
theorem connection_lifecycle (ops : List ConnOp) (rt : Runtime) :
    (∀ s : ConnState, s = .opened ∨ s = .closed) ∧
    runOps .closed ops = .closed ∧
    ((connStep .closed .send).2 = .connectionClosed ∧
      (connStep .closed .expect).2 = .connectionClosed ∧
      (connStep .closed .receive).2 = .connectionClosed ∧
      (connStep .closed .subscribe).2 = .connectionClosed) ∧
    (∀ c ∈ (teardown rt).conns, c = .closed) := by
  refine ⟨?_, ?_, ⟨rfl, rfl, rfl, rfl⟩, ?_⟩
  · intro s
    cases s
    · exact Or.inl rfl
    · exact Or.inr rfl
  · induction ops with
    | nil => rfl
    | cons op ops ih => exact ih
  · intro c hc
    rcases List.mem_map.mp hc with ⟨s, -, hs⟩
    exact hs.symm

/-- C10: reading fields of a decoded message through the Field View never
modifies the message: any sequence of reads leaves the message (raw
buffer and all) unchanged, each read's result equals the pure read on the
original message, and repeating a read yields an equal result. -/
theorem field_reads_pure (msg : DecodedMsg) (ops : List ReadOp) :
    (runReads msg ops).2 = msg ∧
    (runReads msg ops).1 = ops.map (fun op => (runRead msg op).1) ∧
    ∀ op : ReadOp, (runRead (runRead msg op).2 op).1 = (runRead msg op).1 := by
  have hsnd : ∀ (m2 : DecodedMsg) (op : ReadOp), (runRead m2 op).2 = m2 := by
    intro m2 op
    cases op <;> rfl
  refine ⟨?_, ?_, fun op => by rw [hsnd msg op]⟩
  · induction ops with
    | nil => rfl
    | cons op ops ih =>
      show (runReads (runRead msg op).2 ops).2 = msg
      rw [hsnd msg op]
      exact ih
  · induction ops with
    | nil => rfl
    | cons op ops ih =>
      show (runRead msg op).1 :: (runReads (runRead msg op).2 ops).1 = _
      rw [hsnd msg op, List.map_cons, ih]

end LibmavModel
